import Mathlib

/-!
Verification of the chess AI engine (searcher + evaluator).

The searcher (`getBestMove` / `minimax` / `getMoveScore`) operates on an
opaque position handle owned by an external rules engine, interacting with
it only through: legal-move enumeration, move application, undo, game-over
detection, turn query, and static evaluation.  We embed that interface as a
finitely-branching game tree (`GameTree`): the node carries the data the
searcher can observe (static evaluation score, game-over flag, side to
move) and the list of legal moves, each paired with the position it leads
to.  The mutable position handle is embedded as a `Game` value holding the
current node and the history stack mutated by `game.move` / `game.undo`;
the searcher is translated in state-passing style so that the apply/undo
discipline of the source is visible in the embedding.

JavaScript's `-Infinity` / `Infinity` search bounds are embedded by the
three-constructor type `Ext` (integers extended with both infinities).

The evaluator (`evaluateBoard` and its helpers) is embedded concretely over
an 8 x 8 board (`Board`), rows indexed 0..7 top-down exactly like the array
returned by the rules engine's `board()` accessor: row 0 is the eighth row
of the array (Black's home rank), row 7 is White's home rank.  Strings
(SAN notation, move flags) are embedded as their character lists.
-/

namespace ChessAI

/-- Integers extended with `-Infinity` and `+Infinity`, the score domain of
the JavaScript search (`evaluateBoard` itself only produces finite values,
but the alpha/beta window and the running best values start at the
infinities). -/
inductive Ext : Type where
  | ninf : Ext
  | fin : Int → Ext
  | pinf : Ext
deriving DecidableEq

namespace Ext

/-- Order-embedding of `Ext` into `WithBot (WithTop Int)`, used to lift the
linear order. -/
def toW : Ext → WithBot (WithTop Int)
  | ninf => ⊥
  | fin z => ((z : WithTop Int) : WithBot (WithTop Int))
  | pinf => ((⊤ : WithTop Int) : WithBot (WithTop Int))

theorem toW_injective : Function.Injective toW := by
  intro a b h
  cases a <;> cases b <;> simp [toW] at h <;> simp [h]

instance : LinearOrder Ext := LinearOrder.lift' toW toW_injective

theorem le_def {a b : Ext} : a ≤ b ↔ toW a ≤ toW b := Iff.rfl

theorem ninf_le (x : Ext) : ninf ≤ x := by
  show toW ninf ≤ toW x; simp [toW]

theorem le_pinf (x : Ext) : x ≤ pinf := by
  show toW x ≤ toW pinf; cases x <;> simp [toW]

theorem ninf_lt_pinf : (ninf : Ext) < pinf := by
  show toW ninf < toW pinf; simp [toW]

theorem ninf_lt_fin (z : Int) : ninf < fin z := by
  show toW ninf < toW (fin z); simp [toW]

theorem fin_lt_pinf (z : Int) : fin z < pinf := by
  show toW (fin z) < toW pinf
  simp only [toW]
  exact WithBot.coe_lt_coe.mpr (WithTop.coe_lt_top z)

theorem fin_le_fin {a b : Int} : fin a ≤ fin b ↔ a ≤ b := by
  constructor
  · intro h
    have h' : ((a : WithTop Int) : WithBot (WithTop Int)) ≤ ((b : WithTop Int) : WithBot (WithTop Int)) := h
    exact_mod_cast h'
  · intro h
    show toW (fin a) ≤ toW (fin b)
    simp only [toW]
    exact_mod_cast h

end Ext

/-- `max α (min β x)`: the value of `x` as observed through an alpha-beta
window.  Two searches that agree under every clamp with `α < β` return the
same score at the full window `(-∞, +∞)`. -/
def clamp (a b x : Ext) : Ext := max a (min b x)

theorem clamp_full (x : Ext) : clamp Ext.ninf Ext.pinf x = x := by
  unfold clamp
  rw [min_eq_right (Ext.le_pinf x), max_eq_right (Ext.ninf_le x)]

theorem clamp_of_le_left {a x : Ext} (b : Ext) (h : x ≤ a) : clamp a b x = a := by
  unfold clamp
  exact max_eq_left ((min_le_right b x).trans h)

theorem clamp_of_le_right {a b x : Ext} (hab : a ≤ b) (h : b ≤ x) : clamp a b x = b := by
  unfold clamp
  rw [min_eq_left h, max_eq_right hab]

theorem clamp_of_between {a b x : Ext} (h1 : a ≤ x) (h2 : x ≤ b) : clamp a b x = x := by
  unfold clamp
  rw [min_eq_right h2, max_eq_right h1]

theorem eq_of_clamp_between {a b x v : Ext} (h : clamp a b x = v)
    (h1 : a < v) (h2 : v < b) : x = v := by
  rcases le_or_lt x a with hx | hx
  · rw [clamp_of_le_left b hx] at h; exact absurd (h ▸ h1) (lt_irrefl a)
  rcases le_or_lt b x with hbx | hbx
  · rw [clamp_of_le_right (h1.trans h2).le hbx] at h
    exact absurd (h ▸ h2) (lt_irrefl b)
  · rw [clamp_of_between hx.le hbx.le] at h; exact h

theorem le_of_clamp_eq_left {a b x : Ext} (hab : a < b) (h : clamp a b x = a) : x ≤ a := by
  rcases le_or_lt x a with hx | hx
  · exact hx
  rcases le_or_lt b x with hbx | hbx
  · rw [clamp_of_le_right hab.le hbx] at h; exact absurd (h ▸ hab) (lt_irrefl b)
  · rw [clamp_of_between hx.le hbx.le] at h; exact absurd (h ▸ hx) (lt_irrefl x)

theorem le_of_clamp_eq_right {a b x : Ext} (hab : a < b) (h : clamp a b x = b) : b ≤ x := by
  rcases le_or_lt b x with hbx | hbx
  · exact hbx
  rcases le_or_lt x a with hx | hx
  · rw [clamp_of_le_left b hx] at h; exact absurd (h ▸ hab) (lt_irrefl a)
  · rw [clamp_of_between hx.le hbx.le] at h; exact absurd (h ▸ hbx) (lt_irrefl x)

/-! ## Data model of the searcher

Embedding of the rules-engine interface used by `src/unnamed/part_000`. -/

/-- Piece symbols `'p' | 'n' | 'b' | 'r' | 'q' | 'k'` of the rules engine. -/
inductive PieceType : Type where
  | p | n | b | r | q | k
deriving DecidableEq

/-- Piece colors `'w' | 'b'`. -/
inductive PColor : Type where
  | w | b
deriving DecidableEq

/-- The move metadata consumed by `getMoveScore`: moving piece, captured
piece (if any), promotion piece (if any), SAN notation and flags, the two
strings embedded as character lists. -/
structure MoveData where
  piece : PieceType
  captured : Option PieceType
  promotion : Option PieceType
  san : List Char
  flags : List Char
deriving DecidableEq

/-- A position as observed by the searcher: its static evaluation
(`evaluateBoard`), the `isGameOver()` flag, the side to move
(`turn() === 'w'`), and the legal moves, each paired with the position the
rules engine produces when that move is applied. -/
inductive GameTree : Type where
  | node (score : Int) (gameOver : Bool) (turn : Bool)
      (children : List (MoveData × GameTree)) : GameTree

def GameTree.score : GameTree → Int
  | .node s _ _ _ => s

def GameTree.gameOver : GameTree → Bool
  | .node _ o _ _ => o

def GameTree.turn : GameTree → Bool
  | .node _ _ t _ => t

def GameTree.children : GameTree → List (MoveData × GameTree)
  | .node _ _ _ c => c

/-- The mutable position handle: current position plus the history stack
that `game.move` pushes onto and `game.undo` pops. -/
structure Game where
  cur : GameTree
  hist : List GameTree

/-- `game.move(move)`: push the current position and step to the child. -/
def gmove (g : Game) (c : GameTree) : Game := ⟨c, g.cur :: g.hist⟩

/-- `game.undo()`: pop the most recently pushed position. -/
def gundo (g : Game) : Game :=
  match g.hist with
  | [] => g
  | h :: t => ⟨h, t⟩

theorem gundo_gmove (g : Game) (c : GameTree) : gundo (gmove g c) = g := rfl

/-- The difficulty tiers. -/
inductive Difficulty : Type where
  | easy | medium | hard
deriving DecidableEq

/-- `PIECE_VALUES` of the search module (identical to the evaluation
module's table). -/
def pieceValue : PieceType → Int
  | .p => 100
  | .n => 320
  | .b => 330
  | .r => 500
  | .q => 900
  | .k => 20000

/-- `getMoveScore`: the move-ordering heuristic (MVV-LVA captures,
promotions, check/mate markers in the SAN string, castling flags). -/
def getMoveScore (m : MoveData) : Int :=
  let score : Int := 0
  let score := score +
    (match m.captured with
     | some victim => 10000 + pieceValue victim * 10 - pieceValue m.piece
     | none => 0)
  let score := score +
    (match m.promotion with
     | some pr => if pr = PieceType.q then 9000 else 4000
     | none => 0)
  let score := score + (if m.san.contains '+' || m.san.contains '#' then 2000 else 0)
  let score := score + (if m.flags.contains 'k' || m.flags.contains 'q' then 500 else 0)
  score

/-- Stable insertion of a move into an already-sorted (descending by
`getMoveScore`) list: the inserted move goes after earlier-generated moves
of the same score, embedding the stable descending
`moves.sort((a, b) => getMoveScore(b) - getMoveScore(a))`. -/
def insertMove (x : MoveData × GameTree) :
    List (MoveData × GameTree) → List (MoveData × GameTree)
  | [] => [x]
  | y :: ys =>
    if getMoveScore x.1 < getMoveScore y.1 then y :: insertMove x ys else x :: y :: ys

/-- The move-ordering sort applied before the search loop. -/
def sortMoves : List (MoveData × GameTree) → List (MoveData × GameTree)
  | [] => []
  | x :: xs => insertMove x (sortMoves xs)

/-! ## The searcher, in state-passing style

`minimax` is embedded with the mutable position handle threaded
explicitly; `game.move`/`game.undo` become `gmove`/`gundo` on the threaded
state, so every exit path of the source (bottoming out, finishing the move
loop, or breaking on a cut-off) is visible in the embedding. -/

/-- The maximizing-player move loop of `minimax` (lines 112-126 of the
search module): running `maxEval` starts at `-Infinity`, `bestMove` at
`null`; each move is applied, searched, and undone; `maxEval`/`bestMove`
update on strict improvement; `alpha` takes `max alpha bestScore`; the
loop breaks when `beta <= alpha`. -/
def maxLoopS (f : Game → Ext → Ext → (Option MoveData × Ext) × Game) :
    List (MoveData × GameTree) → Game → Ext → Ext → Ext → Option MoveData →
      (Option MoveData × Ext) × Game
  | [], g, _, _, maxEval, best => ((best, maxEval), g)
  | (mv, c) :: rest, g, alpha, beta, maxEval, best =>
    let g1 := gmove g c
    let res := f g1 alpha beta
    let g2 := gundo res.2
    let v := res.1.2
    let maxEval' := if maxEval < v then v else maxEval
    let best' := if maxEval < v then some mv else best
    let alpha' := max alpha v
    if beta ≤ alpha' then ((best', maxEval'), g2)
    else maxLoopS f rest g2 alpha' beta maxEval' best'

/-- The minimizing-player move loop of `minimax` (lines 127-141). -/
def minLoopS (f : Game → Ext → Ext → (Option MoveData × Ext) × Game) :
    List (MoveData × GameTree) → Game → Ext → Ext → Ext → Option MoveData →
      (Option MoveData × Ext) × Game
  | [], g, _, _, minEval, best => ((best, minEval), g)
  | (mv, c) :: rest, g, alpha, beta, minEval, best =>
    let g1 := gmove g c
    let res := f g1 alpha beta
    let g2 := gundo res.2
    let v := res.1.2
    let minEval' := if v < minEval then v else minEval
    let best' := if v < minEval then some mv else best
    let beta' := min beta v
    if beta' ≤ alpha then ((best', minEval'), g2)
    else minLoopS f rest g2 alpha beta' minEval' best'

/-- `minimax(game, depth, alpha, beta, isMaximizingPlayer)`: leaf at depth
0 or on game over (returning the static evaluation), otherwise the sorted
move loop for the side indicated by `isMax`. -/
def minimax : Nat → Game → Ext → Ext → Bool → (Option MoveData × Ext) × Game
  | 0, g, _, _, _ => ((none, Ext.fin g.cur.score), g)
  | d + 1, g, alpha, beta, isMax =>
    if g.cur.gameOver then ((none, Ext.fin g.cur.score), g)
    else
      let moves := sortMoves g.cur.children
      if isMax then maxLoopS (fun g1 a b => minimax d g1 a b false) moves g alpha beta Ext.ninf none
      else minLoopS (fun g1 a b => minimax d g1 a b true) moves g alpha beta Ext.pinf none

/-- `getBestMove(game, difficulty)`: none when no legal move exists;
a randomly indexed legal move on Easy (the random draw embedded as the
explicit `randIdx` parameter, reduced modulo the move count exactly as
`Math.floor(Math.random() * length)` lands in `[0, length)`); otherwise
depth-2 (Medium) or depth-3 (Hard) alpha-beta from the full window, with
the first generated move as fallback when the search returns no move.
The final component is the position handle after the call. -/
def getBestMove (g : Game) (diff : Difficulty) (randIdx : Nat) :
    Option MoveData × Game :=
  let possibleMoves := g.cur.children
  if possibleMoves.length = 0 then (none, g)
  else if diff = Difficulty.easy then
    ((possibleMoves.map Prod.fst).get? (randIdx % possibleMoves.length), g)
  else
    let depth := if diff = Difficulty.medium then 2 else 3
    let isMax := g.cur.turn
    let res := minimax depth g Ext.ninf Ext.pinf isMax
    ((match res.1.1 with
      | some m => some m
      | none => (possibleMoves.map Prod.fst).head?), res.2)

/-! ## Score-level view of the search

The returned score of `minimax` depends only on the current position, not
on the history stack; `abMaxLoop`/`abMinLoop`/`ab` are the score
projections of the state-passing search, used to prove the pruning
equivalence. -/

/-- Score projection of `maxLoopS`. -/
def abMaxLoop (f : GameTree → Ext → Ext → Ext) :
    List (MoveData × GameTree) → Ext → Ext → Ext → Ext
  | [], _, _, maxEval => maxEval
  | (_, c) :: rest, alpha, beta, maxEval =>
    let v := f c alpha beta
    let maxEval' := max maxEval v
    let alpha' := max alpha v
    if beta ≤ alpha' then maxEval' else abMaxLoop f rest alpha' beta maxEval'

/-- Score projection of `minLoopS`. -/
def abMinLoop (f : GameTree → Ext → Ext → Ext) :
    List (MoveData × GameTree) → Ext → Ext → Ext → Ext
  | [], _, _, minEval => minEval
  | (_, c) :: rest, alpha, beta, minEval =>
    let v := f c alpha beta
    let minEval' := min minEval v
    let beta' := min beta v
    if beta' ≤ alpha then minEval' else abMinLoop f rest alpha beta' minEval'

/-- Score projection of `minimax`. -/
def ab : Nat → GameTree → Ext → Ext → Bool → Ext
  | 0, t, _, _, _ => Ext.fin t.score
  | d + 1, t, alpha, beta, isMax =>
    if t.gameOver then Ext.fin t.score
    else
      let moves := sortMoves t.children
      if isMax then abMaxLoop (fun c a b => ab d c a b false) moves alpha beta Ext.ninf
      else abMinLoop (fun c a b => ab d c a b true) moves alpha beta Ext.pinf

/-- Modelled from the spec: the exhaustive fold of a maximizing node,
`max` over all children with no cut-off. -/
def fullMaxList (f : GameTree → Ext) : List (MoveData × GameTree) → Ext → Ext
  | [], m => m
  | (_, c) :: rest, m => fullMaxList f rest (max m (f c))

/-- Modelled from the spec: the exhaustive fold of a minimizing node. -/
def fullMinList (f : GameTree → Ext) : List (MoveData × GameTree) → Ext → Ext
  | [], m => m
  | (_, c) :: rest, m => fullMinList f rest (min m (f c))

/-- Modelled from the spec: exhaustive (non-pruned) fixed-depth minimax
over the same legal-move generator and the same evaluator, the reference
point of the alpha-beta result-equivalence property. -/
def fullMinimax : Nat → GameTree → Bool → Ext
  | 0, t, _ => Ext.fin t.score
  | d + 1, t, isMax =>
    if t.gameOver then Ext.fin t.score
    else if isMax then fullMaxList (fun c => fullMinimax d c false) t.children Ext.ninf
    else fullMinList (fun c => fullMinimax d c true) t.children Ext.pinf

/-! ## Frame property: the position handle is restored on every exit path -/

theorem maxLoopS_frame {f : Game → Ext → Ext → (Option MoveData × Ext) × Game}
    (hf : ∀ g1 a b, (f g1 a b).2 = g1) :
    ∀ (l : List (MoveData × GameTree)) (g : Game) (alpha beta maxEval : Ext)
      (best : Option MoveData), (maxLoopS f l g alpha beta maxEval best).2 = g := by
  intro l
  induction l with
  | nil => intro g alpha beta maxEval best; rfl
  | cons hd rest ih =>
    intro g alpha beta maxEval best
    obtain ⟨mv, c⟩ := hd
    show (maxLoopS f ((mv, c) :: rest) g alpha beta maxEval best).2 = g
    rw [maxLoopS]
    simp only [hf]
    split
    · rfl
    · exact ih (gundo (gmove g c)) _ _ _ _

theorem minLoopS_frame {f : Game → Ext → Ext → (Option MoveData × Ext) × Game}
    (hf : ∀ g1 a b, (f g1 a b).2 = g1) :
    ∀ (l : List (MoveData × GameTree)) (g : Game) (alpha beta minEval : Ext)
      (best : Option MoveData), (minLoopS f l g alpha beta minEval best).2 = g := by
  intro l
  induction l with
  | nil => intro g alpha beta minEval best; rfl
  | cons hd rest ih =>
    intro g alpha beta minEval best
    obtain ⟨mv, c⟩ := hd
    rw [minLoopS]
    simp only [hf]
    split
    · rfl
    · exact ih (gundo (gmove g c)) _ _ _ _

theorem minimax_frame :
    ∀ (d : Nat) (g : Game) (alpha beta : Ext) (isMax : Bool),
      (minimax d g alpha beta isMax).2 = g := by
  intro d
  induction d with
  | zero => intro g alpha beta isMax; rfl
  | succ d ih =>
    intro g alpha beta isMax
    rw [minimax]
    split
    · rfl
    · split
      · exact maxLoopS_frame (fun g1 a b => ih g1 a b false) _ g _ _ _ _
      · exact minLoopS_frame (fun g1 a b => ih g1 a b true) _ g _ _ _ _

/-! ## Bridge: the state-passing search computes the pure scores -/

theorem if_lt_eq_max (m v : Ext) : (if m < v then v else m) = max m v := by
  rcases le_or_lt v m with h | h
  · rw [if_neg (not_lt.mpr h), max_eq_left h]
  · rw [if_pos h, max_eq_right h.le]

theorem if_lt_eq_min (m v : Ext) : (if v < m then v else m) = min m v := by
  rcases le_or_lt m v with h | h
  · rw [if_neg (not_lt.mpr h), min_eq_left h]
  · rw [if_pos h, min_eq_right h.le]

theorem maxLoopS_score {f : Game → Ext → Ext → (Option MoveData × Ext) × Game}
    {fa : GameTree → Ext → Ext → Ext}
    (hf : ∀ g1 a b, (f g1 a b).1.2 = fa g1.cur a b) :
    ∀ (l : List (MoveData × GameTree)) (g : Game) (alpha beta maxEval : Ext)
      (best : Option MoveData),
      (maxLoopS f l g alpha beta maxEval best).1.2 = abMaxLoop fa l alpha beta maxEval := by
  intro l
  induction l with
  | nil => intro g alpha beta maxEval best; rfl
  | cons hd rest ih =>
    intro g alpha beta maxEval best
    obtain ⟨mv, c⟩ := hd
    rw [maxLoopS, abMaxLoop]
    simp only [hf, if_lt_eq_max]
    have hc : (gmove g c).cur = c := rfl
    rw [hc]
    split
    · rfl
    · exact ih _ _ _ _ _

theorem minLoopS_score {f : Game → Ext → Ext → (Option MoveData × Ext) × Game}
    {fa : GameTree → Ext → Ext → Ext}
    (hf : ∀ g1 a b, (f g1 a b).1.2 = fa g1.cur a b) :
    ∀ (l : List (MoveData × GameTree)) (g : Game) (alpha beta minEval : Ext)
      (best : Option MoveData),
      (minLoopS f l g alpha beta minEval best).1.2 = abMinLoop fa l alpha beta minEval := by
  intro l
  induction l with
  | nil => intro g alpha beta minEval best; rfl
  | cons hd rest ih =>
    intro g alpha beta minEval best
    obtain ⟨mv, c⟩ := hd
    rw [minLoopS, abMinLoop]
    simp only [hf, if_lt_eq_min]
    have hc : (gmove g c).cur = c := rfl
    rw [hc]
    split
    · rfl
    · exact ih _ _ _ _ _

theorem minimax_score :
    ∀ (d : Nat) (g : Game) (alpha beta : Ext) (isMax : Bool),
      (minimax d g alpha beta isMax).1.2 = ab d g.cur alpha beta isMax := by
  intro d
  induction d with
  | zero => intro g alpha beta isMax; rfl
  | succ d ih =>
    intro g alpha beta isMax
    rw [minimax, ab]
    split
    · rfl
    · split
      · exact maxLoopS_score (fun g1 a b => ih g1 a b false) _ g _ _ _ _
      · exact minLoopS_score (fun g1 a b => ih g1 a b true) _ g _ _ _ _

/-! ## Pruning never changes the score seen through the window -/

theorem abMaxLoop_ge {f : GameTree → Ext → Ext → Ext} :
    ∀ (l : List (MoveData × GameTree)) (alpha beta m : Ext),
      m ≤ abMaxLoop f l alpha beta m := by
  intro l
  induction l with
  | nil => intro alpha beta m; exact le_refl m
  | cons hd rest ih =>
    intro alpha beta m
    obtain ⟨mv, c⟩ := hd
    rw [abMaxLoop]
    split
    · exact le_max_left m _
    · exact (le_max_left m _).trans (ih _ _ _)

theorem abMinLoop_le {f : GameTree → Ext → Ext → Ext} :
    ∀ (l : List (MoveData × GameTree)) (alpha beta m : Ext),
      abMinLoop f l alpha beta m ≤ m := by
  intro l
  induction l with
  | nil => intro alpha beta m; exact le_refl m
  | cons hd rest ih =>
    intro alpha beta m
    obtain ⟨mv, c⟩ := hd
    rw [abMinLoop]
    split
    · exact min_le_left m _
    · exact (ih _ _ _).trans (min_le_left m _)

theorem fullMaxList_ge {f : GameTree → Ext} :
    ∀ (l : List (MoveData × GameTree)) (m : Ext), m ≤ fullMaxList f l m := by
  intro l
  induction l with
  | nil => intro m; exact le_refl m
  | cons hd rest ih =>
    intro m
    obtain ⟨mv, c⟩ := hd
    exact (le_max_left m (f c)).trans (ih _)

theorem fullMinList_le {f : GameTree → Ext} :
    ∀ (l : List (MoveData × GameTree)) (m : Ext), fullMinList f l m ≤ m := by
  intro l
  induction l with
  | nil => intro m; exact le_refl m
  | cons hd rest ih =>
    intro m
    obtain ⟨mv, c⟩ := hd
    exact (ih _).trans (min_le_left m (f c))

/-- Replacing the contribution of one child value by another, both at or
below `alpha`, does not change the clamped exhaustive fold. -/
theorem fullMaxList_clamp_acc {f : GameTree → Ext} {alpha beta x y : Ext}
    (hx : x ≤ alpha) (hy : y ≤ alpha) :
    ∀ (l : List (MoveData × GameTree)) (m : Ext),
      clamp alpha beta (fullMaxList f l (max m x)) =
        clamp alpha beta (fullMaxList f l (max m y)) := by
  intro l
  induction l with
  | nil =>
    intro m
    show clamp alpha beta (max m x) = clamp alpha beta (max m y)
    rcases le_total m alpha with hm | hm
    · rw [clamp_of_le_left beta (max_le hm hx), clamp_of_le_left beta (max_le hm hy)]
    · rw [max_eq_left (hx.trans hm), max_eq_left (hy.trans hm)]
  | cons hd rest ih =>
    intro m
    obtain ⟨mv, c⟩ := hd
    show clamp alpha beta (fullMaxList f rest (max (max m x) (f c))) =
      clamp alpha beta (fullMaxList f rest (max (max m y) (f c)))
    rw [sup_right_comm m x (f c), sup_right_comm m y (f c)]
    exact ih (max m (f c))

/-- Dual of `fullMaxList_clamp_acc` for the minimizing fold. -/
theorem fullMinList_clamp_acc {f : GameTree → Ext} {alpha beta x y : Ext}
    (hab : alpha ≤ beta) (hx : beta ≤ x) (hy : beta ≤ y) :
    ∀ (l : List (MoveData × GameTree)) (m : Ext),
      clamp alpha beta (fullMinList f l (min m x)) =
        clamp alpha beta (fullMinList f l (min m y)) := by
  intro l
  induction l with
  | nil =>
    intro m
    show clamp alpha beta (min m x) = clamp alpha beta (min m y)
    rcases le_total beta m with hm | hm
    · rw [clamp_of_le_right hab (le_min hm hx), clamp_of_le_right hab (le_min hm hy)]
    · rw [min_eq_left (hm.trans hx), min_eq_left (hm.trans hy)]
  | cons hd rest ih =>
    intro m
    obtain ⟨mv, c⟩ := hd
    show clamp alpha beta (fullMinList f rest (min (min m x) (f c))) =
      clamp alpha beta (fullMinList f rest (min (min m y) (f c)))
    rw [inf_right_comm m x (f c), inf_right_comm m y (f c)]
    exact ih (min m (f c))

/-- The pruned maximizing move loop agrees with the exhaustive fold under
the alpha-beta clamp, provided every child search does. -/
theorem abMaxLoop_clamp {f : GameTree → Ext → Ext → Ext} {fs : GameTree → Ext}
    (hf : ∀ c a b, a < b → clamp a b (f c a b) = clamp a b (fs c)) :
    ∀ (l : List (MoveData × GameTree)) (alpha beta m : Ext), alpha < beta →
      clamp alpha beta (abMaxLoop f l alpha beta m) =
        clamp alpha beta (fullMaxList fs l m) := by
  intro l
  induction l with
  | nil => intro alpha beta m hab; rfl
  | cons hd rest ih =>
    intro alpha beta m hab
    obtain ⟨mv, c⟩ := hd
    rw [abMaxLoop]
    show clamp alpha beta
        (if beta ≤ max alpha (f c alpha beta) then max m (f c alpha beta)
         else abMaxLoop f rest (max alpha (f c alpha beta)) beta (max m (f c alpha beta))) =
      clamp alpha beta (fullMaxList fs rest (max m (fs c)))
    have cih := hf c alpha beta hab
    split
    · next hcut =>
      have hbv : beta ≤ f c alpha beta := by
        rcases le_max_iff.mp hcut with h | h
        · exact absurd hab (not_lt.mpr h)
        · exact h
      have hct : clamp alpha beta (fs c) = beta := by
        rw [← cih]; exact clamp_of_le_right hab.le hbv
      have hbt : beta ≤ fs c := le_of_clamp_eq_right hab hct
      rw [clamp_of_le_right hab.le (hbv.trans (le_max_right m _)),
        clamp_of_le_right hab.le ((hbt.trans (le_max_right m _)).trans (fullMaxList_ge _ _))]
    · next hcut =>
      have h1 : max alpha (f c alpha beta) < beta := not_le.mp hcut
      have hvb : f c alpha beta < beta := (le_max_right alpha _).trans_lt h1
      rcases le_or_lt (f c alpha beta) alpha with hva | hva
      · rw [max_eq_left hva]
        have hct : clamp alpha beta (fs c) = alpha := by
          rw [← cih]; exact clamp_of_le_left beta hva
        have hta : fs c ≤ alpha := le_of_clamp_eq_left hab hct
        rw [ih alpha beta (max m (f c alpha beta)) hab]
        exact fullMaxList_clamp_acc hva hta rest m
      · have hctv : clamp alpha beta (fs c) = f c alpha beta := by
          rw [← cih]; exact clamp_of_between hva.le hvb.le
        have htv : fs c = f c alpha beta := eq_of_clamp_between hctv hva hvb
        rw [max_eq_right hva.le, htv]
        have iv := ih (f c alpha beta) beta (max m (f c alpha beta)) hvb
        have hrv : f c alpha beta ≤
            abMaxLoop f rest (f c alpha beta) beta (max m (f c alpha beta)) :=
          (le_max_right m _).trans (abMaxLoop_ge _ _ _ _)
        have hWv : f c alpha beta ≤ fullMaxList fs rest (max m (f c alpha beta)) :=
          (le_max_right m _).trans (fullMaxList_ge _ _)
        have e1 : clamp (f c alpha beta) beta
            (abMaxLoop f rest (f c alpha beta) beta (max m (f c alpha beta))) =
            min beta (abMaxLoop f rest (f c alpha beta) beta (max m (f c alpha beta))) :=
          max_eq_right (le_min hvb.le hrv)
        have e2 : clamp (f c alpha beta) beta
            (fullMaxList fs rest (max m (f c alpha beta))) =
            min beta (fullMaxList fs rest (max m (f c alpha beta))) :=
          max_eq_right (le_min hvb.le hWv)
        have e3 : min beta (abMaxLoop f rest (f c alpha beta) beta (max m (f c alpha beta))) =
            min beta (fullMaxList fs rest (max m (f c alpha beta))) := by
          rw [← e1, ← e2, iv]
        unfold clamp
        rw [e3]

/-- The pruned minimizing move loop agrees with the exhaustive fold under
the alpha-beta clamp, provided every child search does. -/
theorem abMinLoop_clamp {f : GameTree → Ext → Ext → Ext} {fs : GameTree → Ext}
    (hf : ∀ c a b, a < b → clamp a b (f c a b) = clamp a b (fs c)) :
    ∀ (l : List (MoveData × GameTree)) (alpha beta m : Ext), alpha < beta →
      clamp alpha beta (abMinLoop f l alpha beta m) =
        clamp alpha beta (fullMinList fs l m) := by
  intro l
  induction l with
  | nil => intro alpha beta m hab; rfl
  | cons hd rest ih =>
    intro alpha beta m hab
    obtain ⟨mv, c⟩ := hd
    rw [abMinLoop]
    show clamp alpha beta
        (if min beta (f c alpha beta) ≤ alpha then min m (f c alpha beta)
         else abMinLoop f rest alpha (min beta (f c alpha beta)) (min m (f c alpha beta))) =
      clamp alpha beta (fullMinList fs rest (min m (fs c)))
    have cih := hf c alpha beta hab
    split
    · next hcut =>
      have hva : f c alpha beta ≤ alpha := by
        rcases min_le_iff.mp hcut with h | h
        · exact absurd hab (not_lt.mpr h)
        · exact h
      have hct : clamp alpha beta (fs c) = alpha := by
        rw [← cih]; exact clamp_of_le_left beta hva
      have hta : fs c ≤ alpha := le_of_clamp_eq_left hab hct
      rw [clamp_of_le_left beta ((min_le_right m _).trans hva),
        clamp_of_le_left beta ((fullMinList_le _ _).trans ((min_le_right m _).trans hta))]
    · next hcut =>
      have h1 : alpha < min beta (f c alpha beta) := not_le.mp hcut
      have hav : alpha < f c alpha beta := h1.trans_le (min_le_right beta _)
      rcases le_or_lt beta (f c alpha beta) with hvb | hvb
      · rw [min_eq_left hvb]
        have hct : clamp alpha beta (fs c) = beta := by
          rw [← cih]; exact clamp_of_le_right hab.le hvb
        have hbt : beta ≤ fs c := le_of_clamp_eq_right hab hct
        rw [ih alpha beta (min m (f c alpha beta)) hab]
        exact fullMinList_clamp_acc hab.le hvb hbt rest m
      · have hctv : clamp alpha beta (fs c) = f c alpha beta := by
          rw [← cih]; exact clamp_of_between hav.le hvb.le
        have htv : fs c = f c alpha beta := eq_of_clamp_between hctv hav hvb
        rw [min_eq_right hvb.le, htv]
        have iv := ih alpha (f c alpha beta) (min m (f c alpha beta)) hav
        have hrv : abMinLoop f rest alpha (f c alpha beta) (min m (f c alpha beta)) ≤
            f c alpha beta :=
          (abMinLoop_le _ _ _ _).trans (min_le_right m _)
        have hWv : fullMinList fs rest (min m (f c alpha beta)) ≤ f c alpha beta :=
          (fullMinList_le _ _).trans (min_le_right m _)
        have e1 : clamp alpha (f c alpha beta)
            (abMinLoop f rest alpha (f c alpha beta) (min m (f c alpha beta))) =
            clamp alpha beta
              (abMinLoop f rest alpha (f c alpha beta) (min m (f c alpha beta))) := by
          unfold clamp
          rw [min_eq_right hrv, min_eq_right (hrv.trans hvb.le)]
        have e2 : clamp alpha (f c alpha beta)
            (fullMinList fs rest (min m (f c alpha beta))) =
            clamp alpha beta (fullMinList fs rest (min m (f c alpha beta))) := by
          unfold clamp
          rw [min_eq_right hWv, min_eq_right (hWv.trans hvb.le)]
        rw [← e1, ← e2, iv]

/-- The exhaustive maximizing fold does not depend on the move ordering. -/
theorem fullMaxList_insertMove {f : GameTree → Ext} (x : MoveData × GameTree) :
    ∀ (l : List (MoveData × GameTree)) (m : Ext),
      fullMaxList f (insertMove x l) m = fullMaxList f (x :: l) m := by
  intro l
  induction l with
  | nil => intro m; rfl
  | cons y ys ih =>
    intro m
    obtain ⟨my, cy⟩ := y
    obtain ⟨mx, cx⟩ := x
    rw [insertMove]
    split
    · show fullMaxList f (insertMove (mx, cx) ys) (max m (f cy)) =
        fullMaxList f ys (max (max m (f cx)) (f cy))
      rw [ih (max m (f cy))]
      show fullMaxList f ys (max (max m (f cy)) (f cx)) =
        fullMaxList f ys (max (max m (f cx)) (f cy))
      rw [sup_right_comm m (f cy) (f cx)]
    · rfl

theorem fullMaxList_sortMoves {f : GameTree → Ext} :
    ∀ (l : List (MoveData × GameTree)) (m : Ext),
      fullMaxList f (sortMoves l) m = fullMaxList f l m := by
  intro l
  induction l with
  | nil => intro m; rfl
  | cons x xs ih =>
    intro m
    rw [sortMoves, fullMaxList_insertMove]
    obtain ⟨mx, cx⟩ := x
    show fullMaxList f (sortMoves xs) (max m (f cx)) = fullMaxList f xs (max m (f cx))
    exact ih _

/-- The exhaustive minimizing fold does not depend on the move ordering. -/
theorem fullMinList_insertMove {f : GameTree → Ext} (x : MoveData × GameTree) :
    ∀ (l : List (MoveData × GameTree)) (m : Ext),
      fullMinList f (insertMove x l) m = fullMinList f (x :: l) m := by
  intro l
  induction l with
  | nil => intro m; rfl
  | cons y ys ih =>
    intro m
    obtain ⟨my, cy⟩ := y
    obtain ⟨mx, cx⟩ := x
    rw [insertMove]
    split
    · show fullMinList f (insertMove (mx, cx) ys) (min m (f cy)) =
        fullMinList f ys (min (min m (f cx)) (f cy))
      rw [ih (min m (f cy))]
      show fullMinList f ys (min (min m (f cy)) (f cx)) =
        fullMinList f ys (min (min m (f cx)) (f cy))
      rw [inf_right_comm m (f cy) (f cx)]
    · rfl

theorem fullMinList_sortMoves {f : GameTree → Ext} :
    ∀ (l : List (MoveData × GameTree)) (m : Ext),
      fullMinList f (sortMoves l) m = fullMinList f l m := by
  intro l
  induction l with
  | nil => intro m; rfl
  | cons x xs ih =>
    intro m
    rw [sortMoves, fullMinList_insertMove]
    obtain ⟨mx, cx⟩ := x
    show fullMinList f (sortMoves xs) (min m (f cx)) = fullMinList f xs (min m (f cx))
    exact ih _

/-- Knuth-Moore style correctness of the pruning search: within any window
`alpha < beta` the pruned score and the exhaustive score agree under the
window clamp. -/
theorem ab_clamp :
    ∀ (d : Nat) (t : GameTree) (alpha beta : Ext) (isMax : Bool), alpha < beta →
      clamp alpha beta (ab d t alpha beta isMax) =
        clamp alpha beta (fullMinimax d t isMax) := by
  intro d
  induction d with
  | zero => intro t alpha beta isMax hab; rfl
  | succ d ih =>
    intro t alpha beta isMax hab
    rw [ab, fullMinimax]
    split
    · rfl
    · split
      · rw [← fullMaxList_sortMoves (l := t.children)]
        exact abMaxLoop_clamp (fun c a b h => ih c a b false h) _ alpha beta Ext.ninf hab
      · rw [← fullMinList_sortMoves (l := t.children)]
        exact abMinLoop_clamp (fun c a b h => ih c a b true h) _ alpha beta Ext.pinf hab

/-- C1. For every position and every depth `d ≥ 0`, the score returned by
the alpha-beta search (`minimax` called with the window
`(-Infinity, +Infinity)`) equals the score of the exhaustive non-pruned
minimax of the same depth over the same legal-move generator and
evaluator: pruning cut-offs never change the returned root score. -/
theorem alphabeta_score_eq_fullMinimax :
    ∀ (d : Nat) (g : Game) (isMax : Bool),
      (minimax d g Ext.ninf Ext.pinf isMax).1.2 = fullMinimax d g.cur isMax := by
  intro d g isMax
  rw [minimax_score]
  have h := ab_clamp d g.cur Ext.ninf Ext.pinf isMax Ext.ninf_lt_pinf
  rwa [clamp_full, clamp_full] at h

/-- C2. Every call to `minimax` — whether it bottoms out at depth 0,
iterates all moves, or breaks early on a cut-off — returns the position
handle in exactly the state it had on entry (every `game.move` is matched
by a `game.undo` on every exit path), and consequently `getBestMove`
returns the position (board contents, turn, and history) unchanged. -/
theorem search_preserves_position :
    (∀ (d : Nat) (g : Game) (alpha beta : Ext) (isMax : Bool),
      (minimax d g alpha beta isMax).2 = g) ∧
    (∀ (g : Game) (diff : Difficulty) (randIdx : Nat),
      (getBestMove g diff randIdx).2 = g) := by
  refine ⟨minimax_frame, ?_⟩
  intro g diff randIdx
  rw [getBestMove]
  split
  · rfl
  · split
    · rfl
    · simp only [minimax_frame]

/-! ## Where the returned move comes from -/

theorem mem_insertMove {x y : MoveData × GameTree} :
    ∀ {l : List (MoveData × GameTree)}, y ∈ insertMove x l ↔ y = x ∨ y ∈ l := by
  intro l
  induction l with
  | nil => simp [insertMove]
  | cons hd rest ih =>
    rw [insertMove]
    split
    · simp only [List.mem_cons, ih]
      try tauto
    · simp only [List.mem_cons]
      try tauto

theorem mem_sortMoves {y : MoveData × GameTree} :
    ∀ {l : List (MoveData × GameTree)}, y ∈ sortMoves l ↔ y ∈ l := by
  intro l
  induction l with
  | nil => simp [sortMoves]
  | cons hd rest ih =>
    rw [sortMoves, mem_insertMove]
    simp only [List.mem_cons, ih]

theorem insertMove_ne_nil (x : MoveData × GameTree) :
    ∀ (l : List (MoveData × GameTree)), insertMove x l ≠ [] := by
  intro l
  cases l with
  | nil => simp [insertMove]
  | cons hd rest =>
    rw [insertMove]
    split <;> simp

theorem sortMoves_ne_nil {l : List (MoveData × GameTree)} (h : l ≠ []) :
    sortMoves l ≠ [] := by
  cases l with
  | nil => exact absurd rfl h
  | cons hd rest => exact insertMove_ne_nil hd (sortMoves rest)

theorem maxLoopS_best_mem {f : Game → Ext → Ext → (Option MoveData × Ext) × Game} :
    ∀ (l : List (MoveData × GameTree)) (g : Game) (alpha beta m : Ext)
      (b : Option MoveData) (mv : MoveData),
      (maxLoopS f l g alpha beta m b).1.1 = some mv →
        b = some mv ∨ mv ∈ l.map Prod.fst := by
  intro l
  induction l with
  | nil => intro g alpha beta m b mv h; exact Or.inl h
  | cons hd rest ih =>
    intro g alpha beta m b mv h
    obtain ⟨mhd, c⟩ := hd
    rw [maxLoopS] at h
    simp only [List.map_cons, List.mem_cons]
    split at h
    · split at h
      · right; left; exact (Option.some.injEq _ _ ▸ h).symm
      · left; exact h
    · rcases ih _ _ _ _ _ _ h with hb | hmem
      · split at hb
        · right; left; exact (Option.some.injEq _ _ ▸ hb).symm
        · left; exact hb
      · right; right; exact hmem

theorem minLoopS_best_mem {f : Game → Ext → Ext → (Option MoveData × Ext) × Game} :
    ∀ (l : List (MoveData × GameTree)) (g : Game) (alpha beta m : Ext)
      (b : Option MoveData) (mv : MoveData),
      (minLoopS f l g alpha beta m b).1.1 = some mv →
        b = some mv ∨ mv ∈ l.map Prod.fst := by
  intro l
  induction l with
  | nil => intro g alpha beta m b mv h; exact Or.inl h
  | cons hd rest ih =>
    intro g alpha beta m b mv h
    obtain ⟨mhd, c⟩ := hd
    rw [minLoopS] at h
    simp only [List.map_cons, List.mem_cons]
    split at h
    · split at h
      · right; left; exact (Option.some.injEq _ _ ▸ h).symm
      · left; exact h
    · rcases ih _ _ _ _ _ _ h with hb | hmem
      · split at hb
        · right; left; exact (Option.some.injEq _ _ ▸ hb).symm
        · left; exact hb
      · right; right; exact hmem

theorem mem_map_fst_sortMoves {mv : MoveData} {l : List (MoveData × GameTree)}
    (h : mv ∈ (sortMoves l).map Prod.fst) : mv ∈ l.map Prod.fst := by
  rcases List.mem_map.mp h with ⟨p, hp, hpe⟩
  exact List.mem_map.mpr ⟨p, mem_sortMoves.mp hp, hpe⟩

/-- Any move returned by `minimax` is drawn from the legal-move list of
the position it was called on. -/
theorem minimax_best_mem :
    ∀ (d : Nat) (g : Game) (alpha beta : Ext) (isMax : Bool) (mv : MoveData),
      (minimax d g alpha beta isMax).1.1 = some mv →
        mv ∈ g.cur.children.map Prod.fst := by
  intro d
  cases d with
  | zero => intro g alpha beta isMax mv h; exact absurd h (by simp [minimax])
  | succ d =>
    intro g alpha beta isMax mv h
    rw [minimax] at h
    split at h
    · exact absurd h (by simp)
    · split at h
      · rcases maxLoopS_best_mem _ _ _ _ _ _ _ h with hb | hmem
        · exact absurd hb (by simp)
        · exact mem_map_fst_sortMoves hmem
      · rcases minLoopS_best_mem _ _ _ _ _ _ _ h with hb | hmem
        · exact absurd hb (by simp)
        · exact mem_map_fst_sortMoves hmem

/-- C4. `getBestMove` returns `none` exactly when the position has no
legal moves, regardless of difficulty; whenever a legal move exists the
result is some move drawn from the legal-move list (Easy: the randomly
indexed element; Medium/Hard: the search result or the first generated
move).  Totality of the embedding reflects that the source never throws
for a well-formed position. -/
theorem getBestMove_none_iff_no_moves :
    ∀ (g : Game) (diff : Difficulty) (randIdx : Nat),
      ((getBestMove g diff randIdx).1 = none ↔ g.cur.children = []) ∧
      (g.cur.children ≠ [] →
        ∃ m, (getBestMove g diff randIdx).1 = some m ∧
          m ∈ g.cur.children.map Prod.fst) := by
  intro g diff randIdx
  have hsome : g.cur.children ≠ [] →
      ∃ m, (getBestMove g diff randIdx).1 = some m ∧
        m ∈ g.cur.children.map Prod.fst := by
    intro hne
    have hlen : ¬ g.cur.children.length = 0 := by
      simpa [List.length_eq_zero] using hne
    rw [getBestMove]
    simp only [hlen, if_false]
    split
    · -- Easy: the randomly indexed element of the move list
      have hidx : randIdx % g.cur.children.length < (g.cur.children.map Prod.fst).length := by
        rw [List.length_map]
        exact Nat.mod_lt _ (Nat.pos_of_ne_zero hlen)
      rw [List.get?_eq_get hidx]
      exact ⟨_, rfl, List.get?_mem (List.get?_eq_get hidx)⟩
    · -- Medium/Hard: search result, or first generated move as fallback
      rcases hres : (minimax (if diff = Difficulty.medium then 2 else 3) g
          Ext.ninf Ext.pinf g.cur.turn).1.1 with _ | m
      · obtain ⟨p, t, hpt⟩ := List.exists_cons_of_ne_nil hne
        refine ⟨p.1, ?_, by rw [hpt]; simp⟩
        simp only [hres, hpt, List.map_cons]
        rfl
      · exact ⟨m, by simp only [hres], minimax_best_mem _ _ _ _ _ _ hres⟩
  constructor
  · constructor
    · intro hnone
      by_contra hne
      rcases hsome hne with ⟨m, hm, _⟩
      rw [hnone] at hm
      exact absurd hm (by simp)
    · intro he
      rw [getBestMove]
      simp [he]
  · exact hsome

/-- Witness for C4 at a concrete position with one legal move. -/
def wMove : MoveData := ⟨PieceType.p, none, none, ['e', '4'], ['n']⟩

def wLeaf : GameTree := GameTree.node 30 true false []

def wGame : Game := ⟨GameTree.node 0 false true [(wMove, wLeaf)], []⟩

theorem getBestMove_none_iff_no_moves_witness :
    ∃ m, (getBestMove wGame Difficulty.hard 0).1 = some m ∧
      m ∈ wGame.cur.children.map Prod.fst :=
  (getBestMove_none_iff_no_moves wGame Difficulty.hard 0).2 (List.cons_ne_nil _ _)

/-! ## C8: when the root search produces a move, and when it does not -/

/-- Well-formedness to depth `d` of the rules-engine interface: a position
with no legal moves reports game over (true of real chess positions:
checkmate or stalemate), checked on every position reachable within `d`
plies. -/
def WFdB : Nat → GameTree → Bool
  | 0, _ => true
  | d + 1, t =>
    (!t.children.isEmpty || t.gameOver) && t.children.all (fun p => WFdB d p.2)

theorem abMaxLoop_fin {f : GameTree → Ext → Ext → Ext} :
    ∀ (l : List (MoveData × GameTree)) (alpha beta m : Ext),
      (∀ p ∈ l, ∀ a b, ∃ z, f p.2 a b = Ext.fin z) →
      ((m = Ext.ninf ∧ l ≠ []) ∨ ∃ z, m = Ext.fin z) →
      ∃ z, abMaxLoop f l alpha beta m = Ext.fin z := by
  intro l
  induction l with
  | nil =>
    intro alpha beta m hf hm
    rcases hm with ⟨_, hne⟩ | hz
    · exact absurd rfl hne
    · exact hz
  | cons hd rest ih =>
    intro alpha beta m hf hm
    obtain ⟨mv, c⟩ := hd
    obtain ⟨zv, hzv⟩ := hf (mv, c) (List.mem_cons_self _ _) alpha beta
    have hm' : ∃ z, max m (f c alpha beta) = Ext.fin z := by
      rcases hm with ⟨hninf, _⟩ | ⟨zm, hzm⟩
      · exact ⟨zv, by rw [hninf, max_eq_right (Ext.ninf_le _), hzv]⟩
      · rcases max_choice m (f c alpha beta) with h | h
        · exact ⟨zm, h.trans hzm⟩
        · exact ⟨zv, h.trans hzv⟩
    rw [abMaxLoop]
    split
    · exact hm'
    · exact ih _ _ _ (fun p hp a b => hf p (List.mem_cons_of_mem _ hp) a b) (Or.inr hm')

theorem abMinLoop_fin {f : GameTree → Ext → Ext → Ext} :
    ∀ (l : List (MoveData × GameTree)) (alpha beta m : Ext),
      (∀ p ∈ l, ∀ a b, ∃ z, f p.2 a b = Ext.fin z) →
      ((m = Ext.pinf ∧ l ≠ []) ∨ ∃ z, m = Ext.fin z) →
      ∃ z, abMinLoop f l alpha beta m = Ext.fin z := by
  intro l
  induction l with
  | nil =>
    intro alpha beta m hf hm
    rcases hm with ⟨_, hne⟩ | hz
    · exact absurd rfl hne
    · exact hz
  | cons hd rest ih =>
    intro alpha beta m hf hm
    obtain ⟨mv, c⟩ := hd
    obtain ⟨zv, hzv⟩ := hf (mv, c) (List.mem_cons_self _ _) alpha beta
    have hm' : ∃ z, min m (f c alpha beta) = Ext.fin z := by
      rcases hm with ⟨hpinf, _⟩ | ⟨zm, hzm⟩
      · exact ⟨zv, by rw [hpinf, min_eq_right (Ext.le_pinf _), hzv]⟩
      · rcases min_choice m (f c alpha beta) with h | h
        · exact ⟨zm, h.trans hzm⟩
        · exact ⟨zv, h.trans hzv⟩
    rw [abMinLoop]
    split
    · exact hm'
    · exact ih _ _ _ (fun p hp a b => hf p (List.mem_cons_of_mem _ hp) a b) (Or.inr hm')

/-- Under the rules-engine guarantee, every score the search produces is
finite. -/
theorem ab_fin :
    ∀ (d : Nat) (t : GameTree) (alpha beta : Ext) (isMax : Bool),
      WFdB d t = true → ∃ z, ab d t alpha beta isMax = Ext.fin z := by
  intro d
  induction d with
  | zero => intro t alpha beta isMax _; exact ⟨t.score, rfl⟩
  | succ d ih =>
    intro t alpha beta isMax hwf
    rw [WFdB, Bool.and_eq_true, Bool.or_eq_true, List.all_eq_true] at hwf
    obtain ⟨hne', hall⟩ := hwf
    rw [ab]
    split
    · exact ⟨t.score, rfl⟩
    · next hgo =>
      have hne : t.children ≠ [] := by
        rcases hne' with h | h
        · intro he
          rw [he] at h
          simp [List.isEmpty] at h
        · exact absurd h hgo
      have hf : ∀ p ∈ sortMoves t.children, ∀ (a b : Ext) (im : Bool),
          ∃ z, ab d p.2 a b im = Ext.fin z := by
        intro p hp a b im
        exact ih p.2 a b im (hall p (mem_sortMoves.mp hp))
      split
      · exact abMaxLoop_fin _ _ _ _ (fun p hp a b => hf p hp a b false)
          (Or.inl ⟨rfl, sortMoves_ne_nil hne⟩)
      · exact abMinLoop_fin _ _ _ _ (fun p hp a b => hf p hp a b true)
          (Or.inl ⟨rfl, sortMoves_ne_nil hne⟩)

theorem maxLoopS_isSome {f : Game → Ext → Ext → (Option MoveData × Ext) × Game} :
    ∀ (l : List (MoveData × GameTree)) (g : Game) (alpha beta m : Ext)
      (b : Option MoveData), b.isSome →
      ((maxLoopS f l g alpha beta m b).1.1).isSome := by
  intro l
  induction l with
  | nil => intro g alpha beta m b hb; exact hb
  | cons hd rest ih =>
    intro g alpha beta m b hb
    obtain ⟨mv, c⟩ := hd
    rw [maxLoopS]
    split
    · split <;> simp [hb]
    · apply ih
      split <;> simp [hb]

theorem minLoopS_isSome {f : Game → Ext → Ext → (Option MoveData × Ext) × Game} :
    ∀ (l : List (MoveData × GameTree)) (g : Game) (alpha beta m : Ext)
      (b : Option MoveData), b.isSome →
      ((minLoopS f l g alpha beta m b).1.1).isSome := by
  intro l
  induction l with
  | nil => intro g alpha beta m b hb; exact hb
  | cons hd rest ih =>
    intro g alpha beta m b hb
    obtain ⟨mv, c⟩ := hd
    rw [minLoopS]
    split
    · split <;> simp [hb]
    · apply ih
      split <;> simp [hb]

theorem maxLoopS_cons_some {f : Game → Ext → Ext → (Option MoveData × Ext) × Game}
    {mv : MoveData} {c : GameTree} {rest : List (MoveData × GameTree)} {g : Game}
    (hz : ∃ z, (f (gmove g c) Ext.ninf Ext.pinf).1.2 = Ext.fin z) :
    ((maxLoopS f ((mv, c) :: rest) g Ext.ninf Ext.pinf Ext.ninf none).1.1).isSome := by
  obtain ⟨z, hz⟩ := hz
  rw [maxLoopS]
  simp only [hz, if_pos (Ext.ninf_lt_fin z), max_eq_right (Ext.ninf_le (Ext.fin z)),
    if_neg (not_le.mpr (Ext.fin_lt_pinf z))]
  exact maxLoopS_isSome rest _ _ _ _ _ rfl

theorem minLoopS_cons_some {f : Game → Ext → Ext → (Option MoveData × Ext) × Game}
    {mv : MoveData} {c : GameTree} {rest : List (MoveData × GameTree)} {g : Game}
    (hz : ∃ z, (f (gmove g c) Ext.ninf Ext.pinf).1.2 = Ext.fin z) :
    ((minLoopS f ((mv, c) :: rest) g Ext.ninf Ext.pinf Ext.pinf none).1.1).isSome := by
  obtain ⟨z, hz⟩ := hz
  rw [minLoopS]
  simp only [hz, if_pos (Ext.fin_lt_pinf z), min_eq_right (Ext.le_pinf (Ext.fin z)),
    if_neg (not_le.mpr (Ext.ninf_lt_fin z))]
  exact minLoopS_isSome rest _ _ _ _ _ rfl

/-- C8 (amended). For every position that is not itself game over, has at
least one legal move, and satisfies the rules-engine guarantee that every
reachable moveless position is game over, the top-level `minimax` call at
depth ≥ 1 from the full window returns a non-null best move: no cut-off
can fire before the first root move is examined and the search scores are
finite, so the first root iteration sets `bestMove`. -/
theorem minimax_some_best_of_wf :
    ∀ (d : Nat) (g : Game) (isMax : Bool),
      WFdB (d + 1) g.cur = true → g.cur.gameOver = false → g.cur.children ≠ [] →
      ((minimax (d + 1) g Ext.ninf Ext.pinf isMax).1.1).isSome := by
  intro d g isMax hwf hgo hne
  rw [WFdB, Bool.and_eq_true, List.all_eq_true] at hwf
  obtain ⟨_, hall⟩ := hwf
  rw [minimax, if_neg (by simp [hgo])]
  obtain ⟨hd, rest, hrw⟩ := List.exists_cons_of_ne_nil (sortMoves_ne_nil hne)
  obtain ⟨mv, c⟩ := hd
  have hcmem : (mv, c) ∈ g.cur.children := mem_sortMoves.mp (hrw ▸ List.mem_cons_self _ _)
  have hwfc : WFdB d c = true := hall (mv, c) hcmem
  rw [hrw]
  cases isMax with
  | true =>
    rw [if_pos rfl]
    exact maxLoopS_cons_some (by rw [minimax_score]; exact ab_fin d c _ _ false hwfc)
  | false =>
    rw [if_neg (by simp)]
    exact minLoopS_cons_some (by rw [minimax_score]; exact ab_fin d c _ _ true hwfc)

def wfMove : MoveData := ⟨PieceType.k, none, none, ['K', 'b', '2'], ['n']⟩

def wfGame : Game := ⟨GameTree.node 0 false true [(wfMove, GameTree.node 5 true false [])], []⟩

theorem minimax_some_best_of_wf_witness :
    ((minimax 2 wfGame Ext.ninf Ext.pinf true).1.1).isSome :=
  minimax_some_best_of_wf 1 wfGame true (by decide) rfl (List.cons_ne_nil _ _)

/-- C8 counterexample: a position that is already game over yet still has
a legal move (a real chess situation: e.g. a draw by insufficient material
such as king versus king, where `isGameOver()` is true while `moves()` is
non-empty).  The top-level Medium-depth `minimax` call returns a null best
move, and `getBestMove` reaches the defensive fallback to the first
generated move — so the fallback is not unreachable as claimed. -/
def cexMove : MoveData := ⟨PieceType.k, none, none, ['K', 'b', '1'], ['n']⟩

def cexGame : Game :=
  ⟨GameTree.node 0 true true [(cexMove, GameTree.node 0 true false [])], []⟩

theorem minimax_null_best_cex :
    cexGame.cur.children.length = 1 ∧
    (minimax 2 cexGame Ext.ninf Ext.pinf true).1.1 = none ∧
    (getBestMove cexGame Difficulty.medium 0).1 = some cexMove :=
  ⟨rfl, rfl, rfl⟩

/-- C9. For Medium and Hard difficulties `getBestMove` is deterministic
and consults no randomness: the embedded random index influences only the
Easy branch, so any two random draws give the same result (and the
function is pure, so identical positions give identical moves; ties are
resolved by the fixed order of the sorted move list). -/
theorem getBestMove_rand_independent :
    ∀ (g : Game) (diff : Difficulty) (r1 r2 : Nat), diff ≠ Difficulty.easy →
      (getBestMove g diff r1).1 = (getBestMove g diff r2).1 := by
  intro g diff r1 r2 h
  by_cases hl : g.cur.children.length = 0
  · simp [getBestMove, hl]
  · simp only [getBestMove, if_neg hl, if_neg h]

theorem getBestMove_rand_independent_witness :
    (getBestMove wGame Difficulty.medium 0).1 = (getBestMove wGame Difficulty.medium 7).1 :=
  getBestMove_rand_independent wGame Difficulty.medium 0 7 (by decide)

/-! ## C3: how the search treats a mate-in-1 -/

/-- The mating move of the C3 scenario: it checkmates immediately, so its
SAN carries the mate marker and the resulting position is game over. -/
def c3MoveMate : MoveData := ⟨PieceType.q, none, none, ['Q', 'd', '8', '#'], ['n']⟩

/-- The checkmate position one ply away: game over, but the static
evaluator sees only its material/positional balance (both kings are still
on the board at checkmate, so no king-value swing appears) — here level
material, evaluation 0. -/
def c3Child1 : GameTree := GameTree.node 0 true false []

/-- The alternative move of the C3 scenario: it wins a queen instead of
mating. -/
def c3MoveQueenGrab : MoveData := ⟨PieceType.r, some PieceType.q, none, ['R', 'x', 'd', '5'], ['c']⟩

def c3Reply : MoveData := ⟨PieceType.k, none, none, ['K', 'a', '7'], ['n']⟩

/-- The position after grabbing the queen: play continues, one reply, and
the mover stands a queen (+900) ahead at the depth-2 leaf. -/
def c3Child2 : GameTree :=
  GameTree.node 900 false false [(c3Reply, GameTree.node 900 false true [])]

/-- A position with a mate-in-1 available (via `c3MoveMate`) and a
materially better non-mating alternative (via `c3MoveQueenGrab`). -/
def c3Game : Game :=
  ⟨GameTree.node 0 false true [(c3MoveMate, c3Child1), (c3MoveQueenGrab, c3Child2)], []⟩

/-- C3 counterexample: in a position one ply from checkmate, `selectMove`
at Medium (depth 2) does not select the mating move — the checkmate leaf
is scored by the static evaluator alone (no king-value-weighted swing
appears, both kings being on the board at checkmate), so the materially
better queen-grab outranks the mate and the mate-in-1 is not recognized
as a terminal, highest-priority outcome. -/
theorem mate_in_one_not_prioritized_cex :
    c3Child1.gameOver = true ∧
    (c3MoveMate, c3Child1) ∈ c3Game.cur.children ∧
    (getBestMove c3Game Difficulty.medium 0).1 = some c3MoveQueenGrab ∧
    c3MoveQueenGrab ≠ c3MoveMate := by
  refine ⟨rfl, List.mem_cons_self _ _, ?_, by decide⟩
  rfl

/-- C3 (amended).  A game-over position (in particular a checkmate
reached one ply away) is treated by `minimax` as a leaf valued by the
static evaluator only — no mate bonus or mate priority exists — so the
search prefers or avoids a forced mate only insofar as the static
evaluations of the leaves dictate. -/
theorem gameOver_leaf_static_eval :
    ∀ (d : Nat) (g : Game) (alpha beta : Ext) (isMax : Bool),
      g.cur.gameOver = true →
      (minimax d g alpha beta isMax).1 = (none, Ext.fin g.cur.score) := by
  intro d g alpha beta isMax h
  cases d with
  | zero => rfl
  | succ d => rw [minimax, if_pos h]

theorem gameOver_leaf_static_eval_witness :
    (minimax 3 (Game.mk c3Child1 []) Ext.ninf Ext.pinf true).1 = (none, Ext.fin 0) :=
  gameOver_leaf_static_eval 3 ⟨c3Child1, []⟩ Ext.ninf Ext.pinf true rfl

/-! ## C6: the move-ordering heuristic -/

/-- Modelled from the spec: the capture component of the ordering score,
`10000 + 10 × value(captured) − value(moving)` for captures. -/
def captureComponent (m : MoveData) : Int :=
  match m.captured with
  | some victim => 10000 + 10 * pieceValue victim - pieceValue m.piece
  | none => 0

/-- Modelled from the spec: +9000 for a queen promotion, +4000 for any
other promotion. -/
def promoComponent (m : MoveData) : Int :=
  match m.promotion with
  | some pr => if pr = PieceType.q then 9000 else 4000
  | none => 0

/-- Modelled from the spec: +2000 when the notation carries a check or
mate marker. -/
def checkComponent (m : MoveData) : Int :=
  if m.san.contains '+' || m.san.contains '#' then 2000 else 0

/-- Modelled from the spec: +500 for castling either side. -/
def castleComponent (m : MoveData) : Int :=
  if m.flags.contains 'k' || m.flags.contains 'q' then 500 else 0

theorem getMoveScore_decomp (m : MoveData) :
    getMoveScore m =
      captureComponent m + promoComponent m + checkComponent m + castleComponent m := by
  cases hc : m.captured <;>
    · simp [getMoveScore, captureComponent, promoComponent, checkComponent,
        castleComponent, hc]
      try ring

theorem promoComponent_bounds (m : MoveData) :
    0 ≤ promoComponent m ∧ promoComponent m ≤ 9000 := by
  cases hpr : m.promotion with
  | none => simp [promoComponent, hpr]
  | some pr =>
    have h : promoComponent m = if pr = PieceType.q then 9000 else 4000 := by
      rw [promoComponent, hpr]
    rw [h]
    split <;> omega

theorem checkComponent_bounds (m : MoveData) :
    0 ≤ checkComponent m ∧ checkComponent m ≤ 2000 := by
  rw [checkComponent]; split <;> omega

theorem castleComponent_bounds (m : MoveData) :
    0 ≤ castleComponent m ∧ castleComponent m ≤ 500 := by
  rw [castleComponent]; split <;> omega

/-- C6. The move-ordering score is the sum of the capture (MVV-LVA),
promotion, check-marker, and castling components stated by the spec; and
a pawn capturing a queen scores strictly higher than a queen capturing a
pawn (the queen's move carrying no promotion, which is impossible for a
queen: even a checking, castling-flagged queen capture stays below the
pawn capture's base score). -/
theorem moveScore_matches_spec :
    (∀ m : MoveData, getMoveScore m =
      captureComponent m + promoComponent m + checkComponent m + castleComponent m) ∧
    (∀ m1 m2 : MoveData,
      m1.piece = PieceType.p → m1.captured = some PieceType.q →
      m2.piece = PieceType.q → m2.captured = some PieceType.p →
      m2.promotion = none →
      getMoveScore m2 < getMoveScore m1) := by
  refine ⟨getMoveScore_decomp, ?_⟩
  intro m1 m2 hp1 hc1 hp2 hc2 hpr2
  rw [getMoveScore_decomp, getMoveScore_decomp]
  have h1 : captureComponent m1 = 18900 := by
    rw [captureComponent, hc1, hp1]; rfl
  have h2 : captureComponent m2 = 10100 := by
    rw [captureComponent, hc2, hp2]; rfl
  have h3 : promoComponent m2 = 0 := by rw [promoComponent, hpr2]
  have b1 := promoComponent_bounds m1
  have b2 := checkComponent_bounds m1
  have b3 := castleComponent_bounds m1
  have b4 := checkComponent_bounds m2
  have b5 := castleComponent_bounds m2
  omega

def c6PawnTakesQueen : MoveData :=
  ⟨PieceType.p, some PieceType.q, none, ['d', 'x', 'e', '5'], ['c']⟩

def c6QueenTakesPawn : MoveData :=
  ⟨PieceType.q, some PieceType.p, none, ['Q', 'x', 'h', '7', '+'], ['c']⟩

theorem moveScore_matches_spec_witness :
    getMoveScore c6QueenTakesPawn < getMoveScore c6PawnTakesQueen :=
  moveScore_matches_spec.2 c6PawnTakesQueen c6QueenTakesPawn rfl rfl rfl rfl rfl

/-! ## Data model of the evaluator

Embedding of `src/unnamed/part_001`.  The board is the row-major 8 x 8
array returned by the rules engine's `board()` accessor: row 0 holds the
squares a8..h8 (Black's home rank), row 7 holds a1..h1 (White's home
rank); the spec's "rank `n`" labels row `n - 1` of this array. -/

/-- A square occupant: `{ type, color }`. -/
structure Piece where
  type : PieceType
  color : PColor
deriving DecidableEq

/-- The 8 x 8 board view, `board[r][c]`. -/
def Board : Type := List (List (Option Piece))

/-- `board[r][c]` for in-range natural indices (out-of-shape rows or
columns read as empty). -/
def bget (b : Board) (r c : Nat) : Option Piece :=
  (((b.get? r).getD []).get? c).getD none

/-- `board[r][c]` for integer indices, empty off the board. -/
def bgetI (b : Board) (r c : Int) : Option Piece :=
  if 0 ≤ r ∧ r < 8 ∧ 0 ≤ c ∧ c < 8 then bget b r.toNat c.toNat else none

/-- `isValidSquare(r, c)`. -/
def isValidSquare (r c : Int) : Bool :=
  decide (0 ≤ r ∧ r < 8 ∧ 0 ≤ c ∧ c < 8)

def PAWN_PST : List Int :=
  [0, 0, 0, 0, 0, 0, 0, 0,
   50, 50, 50, 50, 50, 50, 50, 50,
   10, 10, 20, 30, 30, 20, 10, 10,
   5, 5, 10, 25, 25, 10, 5, 5,
   0, 0, 0, 20, 20, 0, 0, 0,
   5, -5, -10, 0, 0, -10, -5, 5,
   5, 10, 10, -20, -20, 10, 10, 5,
   0, 0, 0, 0, 0, 0, 0, 0]

def KNIGHT_PST : List Int :=
  [-50, -40, -30, -30, -30, -30, -40, -50,
   -40, -20, 0, 0, 0, 0, -20, -40,
   -30, 0, 10, 15, 15, 10, 0, -30,
   -30, 5, 15, 20, 20, 15, 5, -30,
   -30, 0, 15, 20, 20, 15, 0, -30,
   -30, 5, 10, 15, 15, 10, 5, -30,
   -40, -20, 0, 5, 5, 0, -20, -40,
   -50, -40, -30, -30, -30, -30, -40, -50]

def BISHOP_PST : List Int :=
  [-20, -10, -10, -10, -10, -10, -10, -20,
   -10, 0, 0, 0, 0, 0, 0, -10,
   -10, 0, 5, 10, 10, 5, 0, -10,
   -10, 5, 5, 10, 10, 5, 5, -10,
   -10, 0, 10, 10, 10, 10, 0, -10,
   -10, 10, 10, 10, 10, 10, 10, -10,
   -10, 5, 0, 0, 0, 0, 5, -10,
   -20, -10, -10, -10, -10, -10, -10, -20]

def ROOK_PST : List Int :=
  [0, 0, 0, 0, 0, 0, 0, 0,
   5, 10, 10, 10, 10, 10, 10, 5,
   -5, 0, 0, 0, 0, 0, 0, -5,
   -5, 0, 0, 0, 0, 0, 0, -5,
   -5, 0, 0, 0, 0, 0, 0, -5,
   -5, 0, 0, 0, 0, 0, 0, -5,
   -5, 0, 0, 0, 0, 0, 0, -5,
   0, 0, 0, 5, 5, 0, 0, 0]

def QUEEN_PST : List Int :=
  [-20, -10, -10, -5, -5, -10, -10, -20,
   -10, 0, 0, 0, 0, 0, 0, -10,
   -10, 0, 5, 5, 5, 5, 0, -10,
   -5, 0, 5, 5, 5, 5, 0, -5,
   0, 0, 5, 5, 5, 5, 0, -5,
   -10, 5, 5, 5, 5, 5, 0, -10,
   -10, 0, 5, 0, 0, 0, 0, -10,
   -20, -10, -10, -5, -5, -10, -10, -20]

def KING_PST : List Int :=
  [-30, -40, -40, -50, -50, -40, -40, -30,
   -30, -40, -40, -50, -50, -40, -40, -30,
   -30, -40, -40, -50, -50, -40, -40, -30,
   -30, -40, -40, -50, -50, -40, -40, -30,
   -20, -30, -30, -40, -40, -30, -30, -20,
   -10, -20, -20, -20, -20, -20, -20, -10,
   20, 20, 0, 0, 0, 0, 20, 20,
   20, 30, 10, 0, 0, 10, 30, 20]

/-- `PSTS`: the per-piece-type square table. -/
def PSTS : PieceType → List Int
  | .p => PAWN_PST
  | .n => KNIGHT_PST
  | .b => BISHOP_PST
  | .r => ROOK_PST
  | .q => QUEEN_PST
  | .k => KING_PST

def knightDirs : List (Int × Int) :=
  [(2, 1), (2, -1), (-2, 1), (-2, -1), (1, 2), (1, -2), (-1, 2), (-1, -2)]

def rookDirs : List (Int × Int) := [(1, 0), (-1, 0), (0, 1), (0, -1)]

def bishopDirs : List (Int × Int) := [(1, 1), (1, -1), (-1, 1), (-1, -1)]

/-- The sliding-direction walk of `getPieceMobility`: step along
`(dr, dc)` counting empty squares, count a blocking enemy once, stop on
any block or the board edge.  The `while` loop is embedded with fuel 8,
which the 8 x 8 board cannot exhaust (a ray from any square leaves the
board after at most 8 unit steps). -/
def slideCount (b : Board) (color : PColor) (dr dc : Int) : Nat → Int → Int → Nat
  | 0, _, _ => 0
  | fuel + 1, nr, nc =>
    if isValidSquare nr nc then
      match bgetI b nr nc with
      | none => 1 + slideCount b color dr dc fuel (nr + dr) (nc + dc)
      | some t => if t.color ≠ color then 1 else 0
    else 0

/-- `getPieceMobility(board, r, c, type, color)`. -/
def getPieceMobility (b : Board) (r c : Int) (ty : PieceType) (color : PColor) : Nat :=
  if ty = PieceType.n then
    knightDirs.foldl
      (fun acc d =>
        if isValidSquare (r + d.1) (c + d.2) then
          match bgetI b (r + d.1) (c + d.2) with
          | none => acc + 1
          | some t => if t.color ≠ color then acc + 1 else acc
        else acc) 0
  else if ty = PieceType.r then
    rookDirs.foldl (fun acc d => acc + slideCount b color d.1 d.2 8 (r + d.1) (c + d.2)) 0
  else if ty = PieceType.b then
    bishopDirs.foldl (fun acc d => acc + slideCount b color d.1 d.2 8 (r + d.1) (c + d.2)) 0
  else if ty = PieceType.q then
    (rookDirs ++ bishopDirs).foldl
      (fun acc d => acc + slideCount b color d.1 d.2 8 (r + d.1) (c + d.2)) 0
  else 0

/-- One square of the pawn-shield scan of `evaluateKingSafety`: skipped
when the file is off-board, +20 (`KING_SHIELD_BONUS`) for a friendly
pawn, -25 (`KING_OPEN_FILE_PENALTY`) for an empty square, 0 for any other
occupant. -/
def shieldTerm (b : Board) (shieldRank f : Int) (isWhite : Bool) : Int :=
  if 0 ≤ f ∧ f < 8 then
    if isValidSquare shieldRank f then
      match bgetI b shieldRank f with
      | some pc =>
        if pc.type = PieceType.p ∧ pc.color = (if isWhite then PColor.w else PColor.b)
        then 20 else 0
      | none => -25
    else 0
  else 0

/-- `evaluateKingSafety(board, r, c, isWhite)`: the shield scan runs only
with the king on its own back rank — row 7 (the array's 8th row, chess
rank 1) for White, row 0 (chess rank 8) for Black — over the three files
around the king on the rank one step toward the center. -/
def evaluateKingSafety (b : Board) (r c : Nat) (isWhite : Bool) : Int :=
  if (if isWhite then r == 7 else r == 0) then
    let shieldRank : Int := if isWhite then (r : Int) - 1 else (r : Int) + 1
    (([(c : Int) - 1, (c : Int), (c : Int) + 1]).map
      (fun f => shieldTerm b shieldRank f isWhite)).sum
  else 0

/-- The color sign: White positive. -/
def pcSign (pc : Piece) : Int := if pc.color = PColor.w then 1 else -1

/-- The PST lookup: White reads the table at `r*8+c`, Black mirrored at
`63 - (r*8+c)`. -/
def pstVal (pc : Piece) (r c : Nat) : Int :=
  if pc.color = PColor.w then (PSTS pc.type).getD (r * 8 + c) 0
  else (PSTS pc.type).getD (63 - (r * 8 + c)) 0

/-- The mobility contribution of one occupied square: pawns and kings are
excluded, others add `mobility * MOBILITY_WEIGHT`. -/
def mobilityTerm (b : Board) (r c : Nat) (pc : Piece) : Int :=
  if pc.type ≠ PieceType.p ∧ pc.type ≠ PieceType.k then
    (getPieceMobility b (r : Int) (c : Int) pc.type pc.color : Int) * 5
  else 0

/-- The first-pass contribution of one square: material + PST + mobility,
each signed by color. -/
def squareTerm (b : Board) (r c : Nat) : Int :=
  match bget b r c with
  | none => 0
  | some pc =>
    pieceValue pc.type * pcSign pc + pstVal pc r c * pcSign pc +
      mobilityTerm b r c pc * pcSign pc

/-- The row-major scan order of the two board passes. -/
def sqList : List (Nat × Nat) :=
  (List.range 8).flatMap (fun r => (List.range 8).map (fun c => (r, c)))

/-- First board pass of `evaluateBoard`: material, PST, and mobility. -/
def passOne (b : Board) : Int := (sqList.map (fun p => squareTerm b p.1 p.2)).sum

/-- `whitePawnsPerFile` / `blackPawnsPerFile` at file `c`. -/
def pawnsOnFile (b : Board) (color : PColor) (c : Nat) : Nat :=
  ((List.range 8).filter (fun r =>
    match bget b r c with
    | some pc => if pc.type = PieceType.p ∧ pc.color = color then true else false
    | none => false)).length

def otherColor : PColor → PColor
  | .w => .b
  | .b => .w

/-- Second-pass contribution of one square: the rook open/semi-open file
bonus (25 / 10), signed. -/
def rookTerm (b : Board) (r c : Nat) : Int :=
  match bget b r c with
  | some pc =>
    if pc.type = PieceType.r then
      if pawnsOnFile b pc.color c = 0 then
        (if pawnsOnFile b (otherColor pc.color) c = 0 then 25 else 10) * pcSign pc
      else 0
    else 0
  | none => 0

/-- Second board pass of `evaluateBoard`: rooks on open files. -/
def rookBonusPass (b : Board) : Int := (sqList.map (fun p => rookTerm b p.1 p.2)).sum

def bishopCount (b : Board) (color : PColor) : Nat :=
  (sqList.filter (fun p =>
    match bget b p.1 p.2 with
    | some pc => if pc.type = PieceType.b ∧ pc.color = color then true else false
    | none => false)).length

/-- The bishop-pair bonus, +-50. -/
def bishopPairTerm (b : Board) : Int :=
  (if 2 ≤ bishopCount b PColor.w then 50 else 0) -
    (if 2 ≤ bishopCount b PColor.b then 50 else 0)

/-- The king-position tracker of the first pass: the last king of the
given color in row-major scan order, `none` when no king is on the board
(the `{r: -1, c: -1}` sentinel of the source). -/
def kingPos (b : Board) (color : PColor) : Option (Nat × Nat) :=
  sqList.foldl
    (fun acc p =>
      match bget b p.1 p.2 with
      | some pc =>
        if pc.type = PieceType.k ∧ pc.color = color then some p else acc
      | none => acc) none

/-- The white king-safety contribution, 0 when the sentinel guard
`whiteKingPos.r !== -1` fails. -/
def wksVal (b : Board) : Int :=
  match kingPos b PColor.w with
  | some rc => evaluateKingSafety b rc.1 rc.2 true
  | none => 0

/-- The black king-safety contribution, 0 when the sentinel guard fails. -/
def bksVal (b : Board) : Int :=
  match kingPos b PColor.b with
  | some rc => evaluateKingSafety b rc.1 rc.2 false
  | none => 0

/-- King safety enters the total added for White and subtracted for
Black. -/
def kingSafetyTerm (b : Board) : Int := wksVal b - bksVal b

/-- `evaluateBoard(game)`: the accumulated total of the two board passes,
the bishop-pair bonuses, and the signed king-safety terms. -/
def evaluateBoard (b : Board) : Int :=
  passOne b + rookBonusPass b + bishopPairTerm b + kingSafetyTerm b

/-! ## C5: the king-safety term -/

/-- Modelled from the spec: one file of the king-safety scan — off-board
squares are skipped, a friendly pawn contributes the shield bonus +20, an
empty square the open-file penalty -25, any other occupant 0. -/
def kingSafetySpecTerm (b : Board) (sr f : Int) (isWhite : Bool) : Int :=
  if isValidSquare sr f then
    match bgetI b sr f with
    | some pc =>
      if pc.type = PieceType.p ∧ pc.color = (if isWhite then PColor.w else PColor.b)
      then 20 else 0
    | none => -25
  else 0

/-- Modelled from the spec: the king-safety term is computed only when
the king sits on its own back rank (the 8th row of the board array for
White, i.e. chess rank 1; the 1st row for Black, i.e. chess rank 8), and
sums the per-file contributions for the three files from king-file-1 to
king-file+1 at the square one rank toward the center. -/
def kingSafetySpec (b : Board) (r c : Nat) (isWhite : Bool) : Int :=
  if (if isWhite then r == 7 else r == 0) then
    (([(c : Int) - 1, (c : Int), (c : Int) + 1]).map
      (fun f =>
        kingSafetySpecTerm b (if isWhite then (r : Int) - 1 else (r : Int) + 1) f
          isWhite)).sum
  else 0

theorem shieldTerm_eq_specTerm {b : Board} {sr f : Int} {isW : Bool}
    (hsr : 0 ≤ sr ∧ sr < 8) :
    shieldTerm b sr f isW = kingSafetySpecTerm b sr f isW := by
  by_cases hf : 0 ≤ f ∧ f < 8
  · have hv : isValidSquare sr f = true := by
      rw [isValidSquare, decide_eq_true_eq]
      exact ⟨hsr.1, hsr.2, hf.1, hf.2⟩
    simp [shieldTerm, kingSafetySpecTerm, hv, hf]
  · have hv : isValidSquare sr f = false := by
      rw [isValidSquare, decide_eq_false_iff_not]
      intro hcon
      exact hf ⟨hcon.2.2.1, hcon.2.2.2⟩
    simp [shieldTerm, kingSafetySpecTerm, hv, hf]

theorem evaluateKingSafety_eq_spec (b : Board) (r c : Nat) (isW : Bool) :
    evaluateKingSafety b r c isW = kingSafetySpec b r c isW := by
  rw [evaluateKingSafety, kingSafetySpec]
  cases isW with
  | true =>
    by_cases h7 : (r == 7) = true
    · have hr : r = 7 := eq_of_beq h7
      subst hr
      simp only [h7, if_true, if_pos]
      simp only [List.map, List.sum_cons, List.sum_nil]
      rw [shieldTerm_eq_specTerm (by norm_num), shieldTerm_eq_specTerm (by norm_num),
        shieldTerm_eq_specTerm (by norm_num)]
    · simp [h7]
  | false =>
    by_cases h0 : (r == 0) = true
    · have hr : r = 0 := eq_of_beq h0
      subst hr
      simp only [h0, if_true, if_pos]
      simp only [List.map, List.sum_cons, List.sum_nil]
      rw [shieldTerm_eq_specTerm (by norm_num), shieldTerm_eq_specTerm (by norm_num),
        shieldTerm_eq_specTerm (by norm_num)]
    · simp [h0]

/-- C5. The king-safety term is computed only with the king on its own
back rank (row 7 of the board array — its 8th row — for White, row 0 for
Black); for each of the three files from king-file-1 to king-file+1, the
square one rank toward the center contributes +20 for a friendly pawn and
-25 when empty, off-board squares are skipped; and the total enters
`evaluateBoard` added for White and subtracted for Black. -/
theorem kingSafety_matches_spec :
    (∀ (b : Board) (r c : Nat) (isW : Bool),
      evaluateKingSafety b r c isW = kingSafetySpec b r c isW) ∧
    (∀ b : Board,
      evaluateBoard b =
        passOne b + rookBonusPass b + bishopPairTerm b + (wksVal b - bksVal b)) :=
  ⟨evaluateKingSafety_eq_spec, fun _ => rfl⟩

/-! ## C7: the mobility term -/

/-- Modelled from the spec: the squares along a direction vector, from
the first step outward, cut at the board edge. -/
def rayPositions (dr dc : Int) : Nat → Int → Int → List (Int × Int)
  | 0, _, _ => []
  | fuel + 1, nr, nc =>
    if isValidSquare nr nc then (nr, nc) :: rayPositions dr dc fuel (nr + dr) (nc + dc)
    else []

/-- Modelled from the spec: along a ray, every empty square traversed
counts, plus one more if the first occupied square holds an enemy piece;
the walk stops at the first occupied square or the board edge. -/
def rayMobility (b : Board) (color : PColor) (l : List (Int × Int)) : Nat :=
  let occ := l.map (fun p => bgetI b p.1 p.2)
  (occ.takeWhile Option.isNone).length +
    (match occ.dropWhile Option.isNone with
     | some t :: _ => if t.color ≠ color then 1 else 0
     | _ => 0)

/-- Modelled from the spec: knights count the up-to-8 fixed-offset
destinations on the board not occupied by a friendly piece; sliding
pieces (rook/bishop/queen) sum the ray counts of their direction vectors;
pawns and kings contribute 0. -/
def mobilitySpec (b : Board) (r c : Int) (ty : PieceType) (color : PColor) : Nat :=
  match ty with
  | .n =>
    (knightDirs.filter (fun d =>
      isValidSquare (r + d.1) (c + d.2) &&
        (match bgetI b (r + d.1) (c + d.2) with
         | none => true
         | some t => if t.color ≠ color then true else false))).length
  | .r =>
    (rookDirs.map
      (fun d => rayMobility b color (rayPositions d.1 d.2 8 (r + d.1) (c + d.2)))).sum
  | .b =>
    (bishopDirs.map
      (fun d => rayMobility b color (rayPositions d.1 d.2 8 (r + d.1) (c + d.2)))).sum
  | .q =>
    ((rookDirs ++ bishopDirs).map
      (fun d => rayMobility b color (rayPositions d.1 d.2 8 (r + d.1) (c + d.2)))).sum
  | _ => 0

theorem rayMobility_nil (b : Board) (color : PColor) : rayMobility b color [] = 0 := rfl

theorem rayMobility_cons_none {b : Board} {color : PColor} {p : Int × Int}
    {l : List (Int × Int)} (h : bgetI b p.1 p.2 = none) :
    rayMobility b color (p :: l) = 1 + rayMobility b color l := by
  simp only [rayMobility, List.map_cons, h, List.takeWhile_cons, List.dropWhile_cons,
    Option.isNone_none, if_true, List.length_cons]
  omega

theorem rayMobility_cons_some {b : Board} {color : PColor} {p : Int × Int}
    {l : List (Int × Int)} {t : Piece} (h : bgetI b p.1 p.2 = some t) :
    rayMobility b color (p :: l) = if t.color ≠ color then 1 else 0 := by
  simp [rayMobility, List.map_cons, h, List.takeWhile_cons, List.dropWhile_cons]

/-- The fueled sliding walk of the source equals the spec's ray count. -/
theorem slideCount_eq_rayMobility (b : Board) (color : PColor) (dr dc : Int) :
    ∀ (fuel : Nat) (nr nc : Int),
      slideCount b color dr dc fuel nr nc =
        rayMobility b color (rayPositions dr dc fuel nr nc) := by
  intro fuel
  induction fuel with
  | zero => intro nr nc; rfl
  | succ fuel ih =>
    intro nr nc
    rw [slideCount, rayPositions]
    by_cases hv : isValidSquare nr nc = true
    · rw [if_pos hv, if_pos hv]
      cases hocc : bgetI b nr nc with
      | none =>
        rw [rayMobility_cons_none hocc, ih (nr + dr) (nc + dc)]
      | some t =>
        rw [rayMobility_cons_some hocc]
    · rw [if_neg hv, if_neg hv, rayMobility_nil]

theorem foldl_add_eq_sum {α : Type} (h : α → Nat) :
    ∀ (l : List α) (n : Nat),
      l.foldl (fun acc d => acc + h d) n = n + (l.map h).sum := by
  intro l
  induction l with
  | nil => intro n; simp
  | cons d rest ih =>
    intro n
    simp only [List.foldl_cons, List.map_cons, List.sum_cons]
    rw [ih]
    omega

theorem foldl_count_eq_filter {α : Type} (F : Nat → α → Nat) (P : α → Bool)
    (hF : ∀ acc d, F acc d = if P d then acc + 1 else acc) :
    ∀ (l : List α) (acc : Nat), l.foldl F acc = acc + (l.filter P).length := by
  intro l
  induction l with
  | nil => intro acc; simp
  | cons d rest ih =>
    intro acc
    rw [List.foldl_cons, List.filter_cons, hF]
    by_cases hp : P d = true
    · rw [if_pos hp, if_pos hp, ih, List.length_cons]
      omega
    · rw [if_neg hp, if_neg hp, ih]

/-- The knight loop body counts exactly the destinations that are on the
board and not occupied by a friendly piece. -/
theorem knight_body_counts (b : Board) (r c : Int) (color : PColor) :
    ∀ (acc : Nat) (d : Int × Int),
      (if isValidSquare (r + d.1) (c + d.2) then
        match bgetI b (r + d.1) (c + d.2) with
        | none => acc + 1
        | some t => if t.color ≠ color then acc + 1 else acc
      else acc) =
      if (isValidSquare (r + d.1) (c + d.2) &&
          (match bgetI b (r + d.1) (c + d.2) with
           | none => true
           | some t => if t.color ≠ color then true else false)) then acc + 1
      else acc := by
  intro acc d
  by_cases hv : isValidSquare (r + d.1) (c + d.2) = true
  · cases hocc : bgetI b (r + d.1) (c + d.2) with
    | none => simp [hv, hocc]
    | some t => by_cases hcol : t.color = color <;> simp [hv, hocc, hcol]
  · simp [hv]

theorem getPieceMobility_eq_spec (b : Board) (r c : Int) (ty : PieceType) (col : PColor) :
    getPieceMobility b r c ty col = mobilitySpec b r c ty col := by
  cases ty with
  | p => rfl
  | k => rfl
  | n =>
    rw [getPieceMobility, if_pos rfl, mobilitySpec]
    rw [foldl_count_eq_filter _ _ (knight_body_counts b r c col) knightDirs 0]
    omega
  | r =>
    rw [getPieceMobility, if_neg (by decide), if_pos rfl, mobilitySpec]
    rw [foldl_add_eq_sum (fun d : Int × Int => slideCount b col d.1 d.2 8 (r + d.1) (c + d.2))]
    simp only [slideCount_eq_rayMobility]
    omega
  | b =>
    rw [getPieceMobility, if_neg (by decide), if_neg (by decide), if_pos rfl, mobilitySpec]
    rw [foldl_add_eq_sum (fun d : Int × Int => slideCount b col d.1 d.2 8 (r + d.1) (c + d.2))]
    simp only [slideCount_eq_rayMobility]
    omega
  | q =>
    rw [getPieceMobility, if_neg (by decide), if_neg (by decide), if_neg (by decide),
      if_pos rfl, mobilitySpec]
    rw [foldl_add_eq_sum (fun d : Int × Int => slideCount b col d.1 d.2 8 (r + d.1) (c + d.2))]
    simp only [slideCount_eq_rayMobility]
    omega

/-- C7. The mobility count of `getPieceMobility` matches the spec: for a
knight, the up-to-8 fixed-offset destinations on the board not occupied
by a friendly piece; for a sliding piece, every empty square along each
direction vector plus one more when the first occupied square holds an
enemy piece, stopping at the first occupied square or the board edge;
pawns and kings contribute 0; and `evaluateBoard`'s per-square mobility
term multiplies the count by 5 (entering the total with the color sign
via `squareTerm`). -/
theorem mobility_matches_spec :
    (∀ (b : Board) (r c : Int) (ty : PieceType) (col : PColor),
      getPieceMobility b r c ty col = mobilitySpec b r c ty col) ∧
    (∀ (b : Board) (r c : Nat) (pc : Piece),
      mobilityTerm b r c pc =
        if pc.type = PieceType.p ∨ pc.type = PieceType.k then 0
        else (mobilitySpec b (r : Int) (c : Int) pc.type pc.color : Int) * 5) := by
  refine ⟨getPieceMobility_eq_spec, ?_⟩
  intro b r c pc
  by_cases h : pc.type = PieceType.p ∨ pc.type = PieceType.k
  · rw [if_pos h, mobilityTerm, if_neg (by tauto)]
  · rw [if_neg h, mobilityTerm, if_pos (by tauto), getPieceMobility_eq_spec]

/-! ## C10: totality and the missing-king guard -/

/-- A king of the given color stands on the square. -/
def kingAt (b : Board) (col : PColor) (p : Nat × Nat) : Prop :=
  ∃ pc : Piece, bget b p.1 p.2 = some pc ∧ pc.type = PieceType.k ∧ pc.color = col

theorem kingFold_none_iff (b : Board) (col : PColor) :
    ∀ (l : List (Nat × Nat)) (acc : Option (Nat × Nat)),
      (l.foldl
        (fun acc p =>
          match bget b p.1 p.2 with
          | some pc =>
            if pc.type = PieceType.k ∧ pc.color = col then some p else acc
          | none => acc) acc = none) ↔
      (acc = none ∧ ∀ p ∈ l, ¬ kingAt b col p) := by
  intro l
  induction l with
  | nil => intro acc; simp
  | cons p t ih =>
    intro acc
    rw [List.foldl_cons, ih]
    have hupd : ((match bget b p.1 p.2 with
        | some pc =>
          if pc.type = PieceType.k ∧ pc.color = col then some p else acc
        | none => acc) = none) ↔ (acc = none ∧ ¬ kingAt b col p) := by
      cases hocc : bget b p.1 p.2 with
      | none => simp [kingAt, hocc]
      | some pc =>
        by_cases hk : pc.type = PieceType.k ∧ pc.color = col
        · simp [hocc, hk, kingAt]
        · simp [hocc, hk, kingAt]
          try tauto
    rw [hupd]
    simp only [List.forall_mem_cons]
    tauto

theorem mem_sqList (p : Nat × Nat) : p ∈ sqList ↔ p.1 < 8 ∧ p.2 < 8 := by
  obtain ⟨r, c⟩ := p
  simp only [sqList, List.mem_flatMap, List.mem_map, List.mem_range, Prod.mk.injEq]
  constructor
  · rintro ⟨a, ha, bb, hb, h1, h2⟩
    subst h1
    subst h2
    exact ⟨ha, hb⟩
  · rintro ⟨hr, hc⟩
    exact ⟨r, hr, c, hc, rfl, rfl⟩

/-- C10. `evaluateBoard` is total on any board occupancy (the embedding
is a total function), and a missing king is guarded by the sentinel: the
king tracker is `none` exactly when no king of that color stands on any
of the 64 scanned squares, and in that case that color's king-safety
contribution is 0, no square access being attempted. -/
theorem eval_total_missing_king :
    ∀ (b : Board) (col : PColor),
      (kingPos b col = none ↔ ∀ r c : Nat, r < 8 → c < 8 → ¬ kingAt b col (r, c)) ∧
      (kingPos b PColor.w = none → wksVal b = 0) ∧
      (kingPos b PColor.b = none → bksVal b = 0) := by
  intro b col
  refine ⟨?_, ?_, ?_⟩
  · rw [kingPos, kingFold_none_iff]
    constructor
    · rintro ⟨_, h⟩ r c hr hc
      exact h (r, c) ((mem_sqList (r, c)).mpr ⟨hr, hc⟩)
    · intro h
      refine ⟨rfl, ?_⟩
      intro p hp
      obtain ⟨r, c⟩ := p
      have hm := (mem_sqList (r, c)).mp hp
      exact h r c hm.1 hm.2
  · intro h
    rw [wksVal, h]
  · intro h
    rw [bksVal, h]

def emptyBoard : Board := []

theorem eval_total_missing_king_witness :
    wksVal emptyBoard = 0 ∧ bksVal emptyBoard = 0 :=
  ⟨(eval_total_missing_king emptyBoard PColor.w).2.1 rfl,
   (eval_total_missing_king emptyBoard PColor.b).2.2 rfl⟩

end ChessAI
